import Mathlib

/-!
Verification of the core data-transformation pipeline of the `json-formatter`
repository: schema inference (`src/utils/schemaInference.ts`), search and key
sorting (`src/utils/jsonUtils.ts`), the format converters (YAML / XML / CSV)
and the parse-error classifier (`src/utils/errorParser.ts`).

The TypeScript code is shallowly embedded: JavaScript values become an
inductive `Json` type, JS `Set` / `Map` / object fields become
insertion-ordered lists (keys are unique in every state the program builds),
mutation becomes explicit value passing, and `number` is modelled as `Int`
(JS numbers are IEEE doubles; no property verified here depends on non-integer
numeric values, only on the type tag and on the decimal rendering of small
integers, which agrees with JS `String(n)` for integers). JS string indices
are UTF-16 code units; they are modelled as characters, which agrees on the
Basic Multilingual Plane. `toLowerCase`/`localeCompare` are modelled by
`String.toLower` and comparison of lowered strings, which agrees on ASCII
data.
-/

set_option maxHeartbeats 1600000

/-- A JSON value, as produced by `JSON.parse`: the universal value type of the
core.  Objects are insertion-ordered association lists with unique keys. -/
inductive Json where
  | null : Json
  | bool : Bool → Json
  | num : Int → Json
  | str : String → Json
  | arr : List Json → Json
  | obj : List (String × Json) → Json
deriving Repr

namespace Json

/-- Structural induction principle for the nested inductive `Json`. -/
theorem structuralInduction {P : Json → Prop}
    (hnull : P .null) (hbool : ∀ b, P (.bool b)) (hnum : ∀ n, P (.num n))
    (hstr : ∀ s, P (.str s))
    (harr : ∀ l, (∀ x ∈ l, P x) → P (.arr l))
    (hobj : ∀ l, (∀ p ∈ l, P p.2) → P (.obj l)) : ∀ v, P v
  | .null => hnull
  | .bool b => hbool b
  | .num n => hnum n
  | .str s => hstr s
  | .arr l => harr l (fun x hx =>
      have : sizeOf x < 1 + sizeOf l := by
        have := List.sizeOf_lt_of_mem hx
        omega
      structuralInduction hnull hbool hnum hstr harr hobj x)
  | .obj l => hobj l (fun p hp =>
      have : sizeOf p.2 < 1 + sizeOf l := by
        have h1 := List.sizeOf_lt_of_mem hp
        have h2 : sizeOf p.2 < sizeOf p := by
          cases p with
          | mk a b => simp_arith
        omega
      structuralInduction hnull hbool hnum hstr harr hobj p.2)
termination_by v => sizeOf v

end Json

/-! ## Schema inference (`src/utils/schemaInference.ts`) -/

/-- `JsonType` from `schemaInference.ts`:
`"string" | "number" | "boolean" | "null" | "object" | "array"`. -/
inductive JsonType where
  | string | number | boolean | null | object | array
deriving DecidableEq, Repr

/-- `getJsonType` from `schemaInference.ts` (`typeof`-based tagging). -/
def getJsonType : Json → JsonType
  | .null => .null
  | .arr _ => .array
  | .bool _ => .boolean
  | .num _ => .number
  | .str _ => .string
  | .obj _ => .object

/-- `SchemaNode` from `schemaInference.ts`.  `types` models the insertion-
ordered JS `Set<JsonType>` (no duplicates by construction of `addType`);
`children` models the optional insertion-ordered `Map<string, SchemaNode>`. -/
inductive SchemaNode where
  | mk (types : List JsonType)
       (children : Option (List (String × SchemaNode)))
       (items : Option SchemaNode)
       (occurrences : Nat)
       (hasInconsistentTypes : Bool)
deriving Repr

namespace SchemaNode

def types : SchemaNode → List JsonType | .mk t _ _ _ _ => t
def children : SchemaNode → Option (List (String × SchemaNode)) | .mk _ c _ _ _ => c
def items : SchemaNode → Option SchemaNode | .mk _ _ i _ _ => i
def occurrences : SchemaNode → Nat | .mk _ _ _ o _ => o
def hasInconsistentTypes : SchemaNode → Bool | .mk _ _ _ _ h => h

@[simp] theorem types_mk (t c i o h) : types (.mk t c i o h) = t := rfl
@[simp] theorem children_mk (t c i o h) : children (.mk t c i o h) = c := rfl
@[simp] theorem items_mk (t c i o h) : items (.mk t c i o h) = i := rfl
@[simp] theorem occurrences_mk (t c i o h) : occurrences (.mk t c i o h) = o := rfl
@[simp] theorem hasInconsistentTypes_mk (t c i o h) :
    hasInconsistentTypes (.mk t c i o h) = h := rfl

end SchemaNode

/-- `createEmptyNode` from `schemaInference.ts`. -/
def createEmptyNode : SchemaNode := .mk [] none none 0 false

/-- JS `Set.add`: insert at the end when not already present. -/
def addType (ts : List JsonType) (t : JsonType) : List JsonType :=
  if t ∈ ts then ts else ts ++ [t]

/-- `source.types.forEach((t) => target.types.add(t))`. -/
def addTypes (target source : List JsonType) : List JsonType :=
  source.foldl addType target

mutual

/-- The function `mergeSchemaNodes(target, source)` from `schemaInference.ts`,
in value-passing form (the source mutates `target` in place and returns it).
`mergeChildLists` is the `source.children.forEach` loop; JS `Map.set` on an
existing key overwrites in place, modelled by `List.map` over the unique-keyed
child list. -/
def mergeSchemaNodes : SchemaNode → SchemaNode → SchemaNode
  | t, .mk stypes schildren sitems socc _ =>
    let types := addTypes t.types stypes
    let occ := t.occurrences + socc
    let nonNullTypes := types.filter (fun x => x ≠ JsonType.null)
    let flag := decide (nonNullTypes.length > 1)
    let children := match schildren with
      | none => t.children
      | some sc => some (mergeChildLists (t.children.getD []) sc)
    let items := match sitems with
      | none => t.items
      | some si => match t.items with
        | none => some si
        | some ti => some (mergeSchemaNodes ti si)
    .mk types children items occ flag
termination_by t s => (sizeOf s, 0)
decreasing_by
  all_goals simp_wf
  all_goals simp_arith
  all_goals omega

def mergeChildLists : List (String × SchemaNode) → List (String × SchemaNode) →
    List (String × SchemaNode)
  | acc, [] => acc
  | acc, (k, c) :: rest =>
    let acc' := if (acc.lookup k).isSome
      then acc.map (fun kv => if kv.1 = k then (kv.1, mergeSchemaNodes kv.2 c) else kv)
      else acc ++ [(k, c)]
    mergeChildLists acc' rest
termination_by acc l => (sizeOf l, 1)
decreasing_by
  all_goals simp_wf
  all_goals simp_arith
  all_goals omega

end

mutual

/-- The function `inferSchemaFromValue` from `schemaInference.ts`.
`inferChildren` is the `Object.entries` loop; `foldItems` is the array-items
merge loop. -/
def inferSchemaFromValue : Json → SchemaNode
  | .obj entries =>
      .mk [JsonType.object] (some (inferChildren entries)) none 1 false
  | .arr l =>
      let items := if l.isEmpty then none else some (foldItems createEmptyNode l)
      .mk [JsonType.array] none items 1 false
  | v => .mk [getJsonType v] none none 1 false
termination_by v => (sizeOf v, 0)

def inferChildren : List (String × Json) → List (String × SchemaNode)
  | [] => []
  | (k, v) :: rest => (k, inferSchemaFromValue v) :: inferChildren rest
termination_by l => (sizeOf l, 1)

def foldItems : SchemaNode → List Json → SchemaNode
  | acc, [] => acc
  | acc, x :: xs => foldItems (mergeSchemaNodes acc (inferSchemaFromValue x)) xs
termination_by acc l => (sizeOf l, 1)

end

mutual

/-- The function `collectInconsistentPaths` from `schemaInference.ts`,
returning the pushed paths in push order (node first, then children in map
order, then items). -/
def collectInconsistentPaths : SchemaNode → String → List String
  | .mk _ children items _ flag, currentPath =>
    (if flag then
        [if currentPath = "" then "(root)" else currentPath]
      else []) ++
    (match children with
      | none => []
      | some cs => collectChildren cs currentPath) ++
    (match items with
      | none => []
      | some it =>
          collectInconsistentPaths it (if currentPath = "" then "[]" else currentPath ++ "[]"))
termination_by node _ => (sizeOf node, 1)

def collectChildren : List (String × SchemaNode) → String → List String
  | [], _ => []
  | (k, c) :: rest, currentPath =>
      collectInconsistentPaths c (if currentPath = "" then k else currentPath ++ "." ++ k) ++
      collectChildren rest currentPath
termination_by cs _ => (sizeOf cs, 0)

end

/-- `SchemaInfo` from `schemaInference.ts`. -/
structure SchemaInfo where
  root : SchemaNode
  inconsistentPaths : List String

/-- `inferSchema` from `schemaInference.ts`. -/
def inferSchema (data : Json) : SchemaInfo :=
  let root := inferSchemaFromValue data
  { root := root, inconsistentPaths := collectInconsistentPaths root "" }

/-- Node-level computation rule: `types` of the merge result. -/
theorem mergeSchemaNodes_types (t s : SchemaNode) :
    (mergeSchemaNodes t s).types = addTypes t.types s.types := by
  cases s with
  | mk st sc si so sf => cases sc <;> cases si <;> simp [mergeSchemaNodes]

/-- Node-level computation rule: the recomputed `hasInconsistentTypes` flag. -/
theorem mergeSchemaNodes_flag (t s : SchemaNode) :
    (mergeSchemaNodes t s).hasInconsistentTypes =
      decide (((addTypes t.types s.types).filter (fun x => x ≠ JsonType.null)).length > 1) := by
  cases s with
  | mk st sc si so sf => cases sc <;> cases si <;> simp [mergeSchemaNodes]

/-- The top-level `types` set of a freshly inferred node is the singleton type
tag of the value. -/
theorem inferSchemaFromValue_types (v : Json) :
    (inferSchemaFromValue v).types = [getJsonType v] := by
  cases v <;> simp [inferSchemaFromValue, getJsonType]

/-- The top-level `hasInconsistentTypes` flag of a freshly inferred node is
`false`. -/
theorem inferSchemaFromValue_flag (v : Json) :
    (inferSchemaFromValue v).hasInconsistentTypes = false := by
  cases v <;> simp [inferSchemaFromValue]

/-- C1: schema inconsistency detection on the three two-element example
arrays: `[{"x":1},{"x":"s"}]` yields exactly the inconsistent path `"[].x"`;
`[{"x":1},{"x":2}]` yields no inconsistent path; `[{"x":1},{"x":null}]` yields
no inconsistent path (null never counts as a second type). -/
theorem schema_inconsistency_examples :
    "[].x" ∈ (inferSchema (.arr [.obj [("x", .num 1)], .obj [("x", .str "s")]])).inconsistentPaths ∧
    (inferSchema (.arr [.obj [("x", .num 1)], .obj [("x", .num 2)]])).inconsistentPaths = [] ∧
    (inferSchema (.arr [.obj [("x", .num 1)], .obj [("x", .null)]])).inconsistentPaths = [] := by
  refine ⟨?_, ?_, ?_⟩ <;>
    simp [inferSchema, inferSchemaFromValue, inferChildren, foldItems, mergeSchemaNodes,
          mergeChildLists, collectInconsistentPaths, collectChildren, createEmptyNode,
          addTypes, addType, getJsonType]

/-- C2: merging the two freshly inferred top-level schema nodes of any two
values in either order yields the same `types` set (same membership) and the
same `hasInconsistentTypes` verdict. -/
theorem mergeSchemaNodes_comm_on_inferred (a b : Json) :
    (∀ t, t ∈ (mergeSchemaNodes (inferSchemaFromValue a) (inferSchemaFromValue b)).types ↔
          t ∈ (mergeSchemaNodes (inferSchemaFromValue b) (inferSchemaFromValue a)).types) ∧
    (mergeSchemaNodes (inferSchemaFromValue a) (inferSchemaFromValue b)).hasInconsistentTypes =
      (mergeSchemaNodes (inferSchemaFromValue b) (inferSchemaFromValue a)).hasInconsistentTypes := by
  have hperm : (addTypes [getJsonType a] [getJsonType b]).Perm
      (addTypes [getJsonType b] [getJsonType a]) := by
    by_cases h : getJsonType a = getJsonType b
    · simp [addTypes, addType, h]
    · simp only [addTypes, List.foldl, addType, List.mem_singleton]
      rw [if_neg (fun hc => h hc.symm), if_neg h]
      exact List.Perm.swap _ _ _
  constructor
  · intro t
    rw [mergeSchemaNodes_types, mergeSchemaNodes_types,
        inferSchemaFromValue_types, inferSchemaFromValue_types]
    exact ⟨fun h => hperm.mem_iff.mp h, fun h => hperm.mem_iff.mpr h⟩
  · rw [mergeSchemaNodes_flag, mergeSchemaNodes_flag,
        inferSchemaFromValue_types, inferSchemaFromValue_types,
        (hperm.filter _).length_eq]

/-- Structural induction principle for the nested inductive `SchemaNode`. -/
theorem SchemaNode.schemaInduction {P : SchemaNode → Prop}
    (h : ∀ t c i o f, (∀ kv ∈ c.getD [], P kv.2) → (∀ n, i = some n → P n) →
      P (.mk t c i o f)) : ∀ n, P n
  | .mk t c i o f =>
    h t c i o f
      (fun kv hkv =>
        have hlt : sizeOf kv.2 < sizeOf (SchemaNode.mk t c i o f) := by
          match c with
          | none => simp at hkv
          | some cs =>
            have h1 := List.sizeOf_lt_of_mem (by simpa using hkv)
            have h2 : sizeOf kv.2 < sizeOf kv := by
              cases kv with
              | mk a b => simp_arith
            simp_arith at *
            omega
        SchemaNode.schemaInduction h kv.2)
      (fun n hn =>
        have hlt : sizeOf n < sizeOf (SchemaNode.mk t c i o f) := by
          subst hn
          simp_arith
        SchemaNode.schemaInduction h n)
termination_by n => sizeOf n
decreasing_by
  all_goals simp_arith at hlt ⊢
  all_goals omega

/-- Unfolding rule: `inferChildren` maps `inferSchemaFromValue` over the
entries. -/
theorem inferChildren_eq : ∀ l, inferChildren l =
    l.map (fun kv => (kv.1, inferSchemaFromValue kv.2)) := by
  intro l
  induction l with
  | nil => simp [inferChildren]
  | cons hd tl ih =>
    cases hd with
    | mk k v => rw [inferChildren, ih]; rfl

/-- A schema node produced by direct inference (no merging at its own level or
along pure object-children chains): its flag is `false` and all its object
children are again direct.  The `items` subtree is unconstrained. -/
inductive Direct : SchemaNode → Prop where
  | mk (t : List JsonType) (c : Option (List (String × SchemaNode)))
      (i : Option SchemaNode) (o : Nat)
      (hc : ∀ kv ∈ c.getD [], Direct kv.2) : Direct (.mk t c i o false)

/-- Every node built by `inferSchemaFromValue` is `Direct`. -/
theorem inferSchemaFromValue_direct : ∀ v, Direct (inferSchemaFromValue v) := by
  intro v
  induction v using Json.structuralInduction with
  | hnull =>
    rw [show inferSchemaFromValue .null = .mk [JsonType.null] none none 1 false
      from by simp [inferSchemaFromValue, getJsonType]]
    exact Direct.mk _ _ _ _ (by simp)
  | hbool b =>
    rw [show inferSchemaFromValue (.bool b) = .mk [JsonType.boolean] none none 1 false
      from by simp [inferSchemaFromValue, getJsonType]]
    exact Direct.mk _ _ _ _ (by simp)
  | hnum n =>
    rw [show inferSchemaFromValue (.num n) = .mk [JsonType.number] none none 1 false
      from by simp [inferSchemaFromValue, getJsonType]]
    exact Direct.mk _ _ _ _ (by simp)
  | hstr s =>
    rw [show inferSchemaFromValue (.str s) = .mk [JsonType.string] none none 1 false
      from by simp [inferSchemaFromValue, getJsonType]]
    exact Direct.mk _ _ _ _ (by simp)
  | harr l ih =>
    rw [show inferSchemaFromValue (.arr l) =
        .mk [JsonType.array] none
          (if l.isEmpty then none else some (foldItems createEmptyNode l)) 1 false
      from by simp [inferSchemaFromValue]]
    exact Direct.mk _ _ _ _ (by simp)
  | hobj l ih =>
    rw [show inferSchemaFromValue (.obj l) =
        .mk [JsonType.object] (some (inferChildren l)) none 1 false
      from by simp [inferSchemaFromValue]]
    refine Direct.mk _ _ _ _ ?_
    intro kv hkv
    rw [Option.getD_some, inferChildren_eq] at hkv
    rcases List.mem_map.mp hkv with ⟨kv0, hmem, heq⟩
    have : kv.2 = inferSchemaFromValue kv0.2 := by rw [← heq]
    rw [this]
    exact ih kv0 hmem

/-- Unfolding rule for `collectInconsistentPaths` on a constructor. -/
theorem collect_mk (t c i o f p) : collectInconsistentPaths (.mk t c i o f) p =
    (if f then [if p = "" then "(root)" else p] else []) ++
    (match c with
      | none => []
      | some cs => collectChildren cs p) ++
    (match i with
      | none => []
      | some it => collectInconsistentPaths it (if p = "" then "[]" else p ++ "[]")) := by
  cases c <;> cases i <;> cases f <;> simp [collectInconsistentPaths]

/-- Membership in the children walk of `collectInconsistentPaths`. -/
theorem mem_collectChildren (cs : List (String × SchemaNode)) (p s : String) :
    s ∈ collectChildren cs p ↔
      ∃ kv ∈ cs, s ∈ collectInconsistentPaths kv.2
        (if p = "" then kv.1 else p ++ "." ++ kv.1) := by
  induction cs with
  | nil => simp [collectChildren]
  | cons hd tl ih =>
    cases hd with
    | mk k c =>
      rw [collectChildren]
      simp only [List.mem_append, ih, List.mem_cons]
      constructor
      · rintro (h | ⟨kv, hkv, h⟩)
        · exact ⟨(k, c), Or.inl rfl, h⟩
        · exact ⟨kv, Or.inr hkv, h⟩
      · rintro ⟨kv, hkv | hkv, h⟩
        · subst hkv; exact Or.inl h
        · exact Or.inr ⟨kv, hkv, h⟩

/-- Every path collected below a nonempty current path `p` is either `p`
itself (the node's own flag) or extends `p` with a segment containing a dot or
an opening bracket. -/
theorem collect_path_structure :
    ∀ n, ∀ p s, p ≠ "" → s ∈ collectInconsistentPaths n p →
      (s = p ∧ n.hasInconsistentTypes = true) ∨
      ∃ t, s = p ++ t ∧ t ≠ "" ∧ ('.' ∈ t.data ∨ '[' ∈ t.data) := by
  intro n
  induction n using SchemaNode.schemaInduction with
  | h ty c i o f ihc ihi =>
    intro p s hp hs
    rw [collect_mk] at hs
    rcases List.mem_append.mp hs with hs | hs
    · rcases List.mem_append.mp hs with hs | hs
      · -- the node's own push
        by_cases hf : f
        · rw [if_pos hf, if_neg hp] at hs
          simp only [List.mem_singleton] at hs
          exact Or.inl ⟨hs, by simp [hf]⟩
        · rw [if_neg hf] at hs
          simp at hs
      · -- children
        match c with
        | none => simp at hs
        | some cs =>
          rcases (mem_collectChildren cs p s).mp hs with ⟨kv, hkv, hmem⟩
          rw [if_neg hp] at hmem
          have hp' : p ++ "." ++ kv.1 ≠ "" := by
            intro hc
            rw [String.ext_iff] at hc
            simp [String.data_append] at hc
          rcases ihc kv (by simp [hkv]) (p ++ "." ++ kv.1) s hp' hmem with
            ⟨heq, _⟩ | ⟨t, heq, _, _⟩
          · refine Or.inr ⟨"." ++ kv.1, ?_, ?_, Or.inl ?_⟩
            · rw [heq, String.append_assoc]
            · intro hc
              rw [String.ext_iff] at hc
              simp [String.data_append] at hc
            · simp [String.data_append]
          · refine Or.inr ⟨"." ++ kv.1 ++ t, ?_, ?_, Or.inl ?_⟩
            · rw [heq, String.append_assoc, String.append_assoc, String.append_assoc]
            · intro hc
              rw [String.ext_iff] at hc
              simp [String.data_append] at hc
            · simp [String.data_append]
    · -- items
      match i with
      | none => simp at hs
      | some it =>
        rw [if_neg hp] at hs
        have hp' : p ++ "[]" ≠ "" := by
          intro hc
          rw [String.ext_iff] at hc
          simp [String.data_append] at hc
        rcases ihi it rfl (p ++ "[]") s hp' hs with ⟨heq, _⟩ | ⟨t, heq, _, _⟩
        · refine Or.inr ⟨"[]", heq, ?_, Or.inr ?_⟩
          · intro hc
            rw [String.ext_iff] at hc
            simp at hc
          · simp
        · refine Or.inr ⟨"[]" ++ t, ?_, ?_, Or.inr ?_⟩
          · rw [heq, String.append_assoc]
          · intro hc
            rw [String.ext_iff] at hc
            simp [String.data_append] at hc
          · simp [String.data_append]

/-- A `Direct` node has its flag down. -/
theorem Direct.flag_false {n : SchemaNode} (h : Direct n) :
    n.hasInconsistentTypes = false := by
  cases h with
  | mk t c i o hc => simp

/-- Walking a `Direct` tree from the empty root path never pushes the literal
path `"(root)"`. -/
theorem direct_no_root :
    ∀ n, Direct n → ∀ s ∈ collectInconsistentPaths n "", s ≠ "(root)" := by
  intro n
  induction n using SchemaNode.schemaInduction with
  | h ty c i o f ihc ihi =>
    intro hd s hs
    have hf : f = false := by
      have := hd.flag_false
      simpa using this
    subst hf
    have hc : ∀ kv ∈ c.getD [], Direct kv.2 := by
      cases hd with
      | mk _ _ _ _ hc => exact hc
    rw [collect_mk] at hs
    rcases List.mem_append.mp hs with hs | hs
    · rcases List.mem_append.mp hs with hs | hs
      · simp at hs
      · match c with
        | none => simp at hs
        | some cs =>
          rcases (mem_collectChildren cs "" s).mp hs with ⟨kv, hkv, hmem⟩
          rw [if_pos rfl] at hmem
          by_cases hk : kv.1 = ""
          · rw [hk] at hmem
            exact ihc kv (by simp [hkv]) (hc kv (by simp [hkv])) s hmem
          · rcases collect_path_structure kv.2 kv.1 s hk hmem with
              ⟨_, hflag⟩ | ⟨t, heq, _, hdot⟩
            · have := (hc kv (by simp [hkv])).flag_false
              rw [this] at hflag
              exact absurd hflag (by simp)
            · intro hroot
              rw [hroot] at heq
              have hdata : "(root)".data = kv.1.data ++ t.data := by
                rw [heq, String.data_append]
              rcases hdot with hdot | hdot
              · have : '.' ∈ "(root)".data := by
                  rw [hdata]
                  exact List.mem_append_right _ hdot
                revert this
                decide
              · have : '[' ∈ "(root)".data := by
                  rw [hdata]
                  exact List.mem_append_right _ hdot
                revert this
                decide
    · match i with
      | none => simp at hs
      | some it =>
        rw [if_pos rfl] at hs
        rcases collect_path_structure it "[]" s (by decide) hs with
          ⟨heq, _⟩ | ⟨t, heq, _, _⟩
        · rw [heq]; decide
        · intro hroot
          rw [hroot] at heq
          have hdata : "(root)".data = "[]".data ++ t.data := by
            rw [heq, String.data_append]
          simp at hdata

/-- C10: the root node returned by `inferSchema` always has a singleton
`types` set and a `false` inconsistency flag, and the literal path `"(root)"`
never occurs in `inconsistentPaths`. -/
theorem inferSchema_root_consistent (v : Json) :
    (inferSchema v).root.types.length = 1 ∧
    (inferSchema v).root.hasInconsistentTypes = false ∧
    "(root)" ∉ (inferSchema v).inconsistentPaths := by
  refine ⟨?_, ?_, ?_⟩
  · show (inferSchemaFromValue v).types.length = 1
    rw [inferSchemaFromValue_types]
    rfl
  · show (inferSchemaFromValue v).hasInconsistentTypes = false
    exact inferSchemaFromValue_flag v
  · intro hmem
    exact direct_no_root _ (inferSchemaFromValue_direct v) _ hmem rfl

/-! ## Search engine (`searchJson` in `src/utils/jsonUtils.ts`) -/

/-- JS `String.prototype.includes`: contiguous substring containment (always
true for the empty needle). -/
def jsIncludes (hay sub : String) : Bool := decide (sub.data <:+: hay.data)

/-- Match kind of `SearchMatch.type`: `"key" | "value"`. -/
inductive MatchType where
  | key | value
deriving DecidableEq, Repr

/-- `SearchMatch` from `jsonUtils.ts`. -/
structure SearchMatch where
  path : String
  type : MatchType
  text : String
deriving DecidableEq, Repr

mutual

/-- The inner `search(value, path)` closure of `searchJson` in
`jsonUtils.ts`; `searchQuery` is the (possibly pre-lowercased) query. -/
def searchAux (caseSensitive : Bool) (searchQuery : String) :
    Json → String → List SearchMatch
  | .null, path =>
      if jsIncludes "null" searchQuery then [⟨path, .value, "null"⟩] else []
  | .str s, path =>
      let compareText := if caseSensitive then s else s.toLower
      if jsIncludes compareText searchQuery then [⟨path, .value, s⟩] else []
  | .num n, path =>
      let text := toString n
      let compareText := if caseSensitive then text else text.toLower
      if jsIncludes compareText searchQuery then [⟨path, .value, text⟩] else []
  | .bool b, path =>
      let text := if b then "true" else "false"
      let compareText := if caseSensitive then text else text.toLower
      if jsIncludes compareText searchQuery then [⟨path, .value, text⟩] else []
  | .arr l, path => searchArr caseSensitive searchQuery l path 0
  | .obj l, path => searchObj caseSensitive searchQuery l path
termination_by v _ => (sizeOf v, 0)

/-- The `value.forEach((item, index) => ...)` loop over array elements. -/
def searchArr (caseSensitive : Bool) (searchQuery : String) :
    List Json → String → Nat → List SearchMatch
  | [], _, _ => []
  | x :: xs, path, index =>
      searchAux caseSensitive searchQuery x (path ++ "[" ++ toString index ++ "]") ++
      searchArr caseSensitive searchQuery xs path (index + 1)
termination_by l _ _ => (sizeOf l, 1)

/-- The `Object.entries` loop over object entries: optional key match, then
recursion into the value. -/
def searchObj (caseSensitive : Bool) (searchQuery : String) :
    List (String × Json) → String → List SearchMatch
  | [], _ => []
  | (k, v) :: rest, path =>
      let keyPath := if path = "" then k else path ++ "." ++ k
      let compareKey := if caseSensitive then k else k.toLower
      (if jsIncludes compareKey searchQuery then [⟨keyPath, .key, k⟩] else []) ++
      searchAux caseSensitive searchQuery v keyPath ++
      searchObj caseSensitive searchQuery rest path
termination_by l _ => (sizeOf l, 1)

end

/-- `searchJson(data, query, caseSensitive)` from `jsonUtils.ts`. -/
def searchJson (data : Json) (query : String) (caseSensitive : Bool) :
    List SearchMatch :=
  searchAux caseSensitive (if caseSensitive then query else query.toLower) data ""

/-- The empty needle is a substring of everything (JS `"x".includes("")` is
`true`). -/
theorem jsIncludes_empty (s : String) : jsIncludes s "" = true := by
  simp [jsIncludes]

/-- Lowercasing maps over the character data. -/
theorem toLower_data (s : String) : s.toLower.data = s.data.map Char.toLower := by
  rw [String.toLower, String.map_eq]

/-- Lowercasing the empty string gives the empty string. -/
theorem toLower_empty : "".toLower = "" := by
  apply String.ext
  rw [toLower_data]
  rfl

mutual

/-- Total number of match slots of a value: one per leaf (null, boolean,
number, string) plus one per object key.  This is how many matches the search
emits when every containment test succeeds. -/
def keyAndLeafCount : Json → Nat
  | .null => 1
  | .bool _ => 1
  | .num _ => 1
  | .str _ => 1
  | .arr l => keyAndLeafCountArr l
  | .obj l => keyAndLeafCountObj l
termination_by v => (sizeOf v, 0)

def keyAndLeafCountArr : List Json → Nat
  | [] => 0
  | x :: xs => keyAndLeafCount x + keyAndLeafCountArr xs
termination_by l => (sizeOf l, 1)

def keyAndLeafCountObj : List (String × Json) → Nat
  | [] => 0
  | (_, v) :: rest => 1 + keyAndLeafCount v + keyAndLeafCountObj rest
termination_by l => (sizeOf l, 1)

end

/-- Array walk of the empty-query search: one match per slot. -/
theorem searchArr_empty_length (cs : Bool) (l : List Json)
    (h : ∀ x ∈ l, ∀ path, (searchAux cs "" x path).length = keyAndLeafCount x) :
    ∀ path i, (searchArr cs "" l path i).length = keyAndLeafCountArr l := by
  induction l with
  | nil => intro path i; simp [searchArr, keyAndLeafCountArr]
  | cons x xs ih =>
    intro path i
    rw [searchArr, keyAndLeafCountArr, List.length_append,
        h x (by simp), ih (fun y hy => h y (by simp [hy]))]

/-- Object walk of the empty-query search: one match per key plus the value
recursion. -/
theorem searchObj_empty_length (cs : Bool) (l : List (String × Json))
    (h : ∀ kv ∈ l, ∀ path, (searchAux cs "" kv.2 path).length = keyAndLeafCount kv.2) :
    ∀ path, (searchObj cs "" l path).length = keyAndLeafCountObj l := by
  induction l with
  | nil => intro path; simp [searchObj, keyAndLeafCountObj]
  | cons kv rest ih =>
    intro path
    cases kv with
    | mk k v =>
      rw [searchObj, keyAndLeafCountObj]
      simp only [jsIncludes_empty, if_true, List.length_append, List.length_singleton]
      rw [h (k, v) (by simp), ih (fun y hy => h y (by simp [hy]))]

/-- Empty-query search over any value produces exactly one match per key and
leaf. -/
theorem searchAux_empty_length (cs : Bool) :
    ∀ v path, (searchAux cs "" v path).length = keyAndLeafCount v := by
  intro v
  induction v using Json.structuralInduction with
  | hnull => intro path; simp [searchAux, keyAndLeafCount, jsIncludes_empty]
  | hbool b => intro path; simp [searchAux, keyAndLeafCount, jsIncludes_empty]
  | hnum n => intro path; simp [searchAux, keyAndLeafCount, jsIncludes_empty]
  | hstr s => intro path; simp [searchAux, keyAndLeafCount, jsIncludes_empty]
  | harr l ih =>
    intro path
    rw [show searchAux cs "" (.arr l) path = searchArr cs "" l path 0 from by
          simp [searchAux],
        show keyAndLeafCount (.arr l) = keyAndLeafCountArr l from by
          simp [keyAndLeafCount]]
    exact searchArr_empty_length cs l ih path 0
  | hobj l ih =>
    intro path
    rw [show searchAux cs "" (.obj l) path = searchObj cs "" l path from by
          simp [searchAux],
        show keyAndLeafCount (.obj l) = keyAndLeafCountObj l from by
          simp [keyAndLeafCount]]
    exact searchObj_empty_length cs l ih path

/-- C3 counterexample: on the value `null` the empty-query search returns a
(single, nonempty) match list, not the empty list the claim requires. -/
theorem searchJson_empty_query_counterexample :
    searchJson Json.null "" false = [⟨"", .value, "null"⟩] ∧
    searchJson Json.null "" false ≠ [] := by
  have hq : (if false = true then "" else "".toLower) = "" := by
    simp [toLower_empty]
  constructor
  · show searchAux false (if false = true then "" else "".toLower) Json.null "" = _
    rw [hq]
    simp [searchAux, jsIncludes_empty]
  · show searchAux false (if false = true then "" else "".toLower) Json.null "" ≠ []
    rw [hq]
    simp [searchAux, jsIncludes_empty]

/-- C3 amended: with an empty query, `searchJson` emits exactly one match per
object key and per leaf (the empty string is a substring of every string); the
no-result-on-empty-query behavior lives in the caller, which skips the search
when the trimmed query is empty. -/
theorem searchJson_empty_query_matches_everything (v : Json) (cs : Bool) :
    (searchJson v "" cs).length = keyAndLeafCount v := by
  show (searchAux cs (if cs = true then "" else "".toLower) v "").length = _
  cases cs
  · rw [show (if false = true then "" else "".toLower) = "" from by simp [toLower_empty]]
    exact searchAux_empty_length _ v ""
  · rw [show (if true = true then "" else "".toLower) = "" from by simp]
    exact searchAux_empty_length _ v ""

mutual

/-- Path strings at which the traversal can emit a Key match: one per object
key, at that key's own path. -/
def keyPaths : Json → String → List String
  | .arr l, path => keyPathsArr l path 0
  | .obj l, path => keyPathsObj l path
  | _, _ => []
termination_by v _ => (sizeOf v, 0)

def keyPathsArr : List Json → String → Nat → List String
  | [], _, _ => []
  | x :: xs, path, index =>
      keyPaths x (path ++ "[" ++ toString index ++ "]") ++ keyPathsArr xs path (index + 1)
termination_by l _ _ => (sizeOf l, 1)

def keyPathsObj : List (String × Json) → String → List String
  | [], _ => []
  | (k, v) :: rest, path =>
      let keyPath := if path = "" then k else path ++ "." ++ k
      keyPath :: (keyPaths v keyPath ++ keyPathsObj rest path)
termination_by l _ => (sizeOf l, 1)

end

mutual

/-- Path strings at which the traversal can emit a Value match: one per leaf
(null, boolean, number, string), at the leaf's path. -/
def leafPaths : Json → String → List String
  | .arr l, path => leafPathsArr l path 0
  | .obj l, path => leafPathsObj l path
  | _, path => [path]
termination_by v _ => (sizeOf v, 0)

def leafPathsArr : List Json → String → Nat → List String
  | [], _, _ => []
  | x :: xs, path, index =>
      leafPaths x (path ++ "[" ++ toString index ++ "]") ++ leafPathsArr xs path (index + 1)
termination_by l _ _ => (sizeOf l, 1)

def leafPathsObj : List (String × Json) → String → List String
  | [], _ => []
  | (k, v) :: rest, path =>
      leafPaths v (if path = "" then k else path ++ "." ++ k) ++ leafPathsObj rest path
termination_by l _ => (sizeOf l, 1)

end

/-- Predicate picking the Key matches at path `p`. -/
def isKeyMatchAt (p : String) (m : SearchMatch) : Bool :=
  decide (m.type = MatchType.key) && decide (m.path = p)

/-- Predicate picking the Value matches at path `p`. -/
def isValueMatchAt (p : String) (m : SearchMatch) : Bool :=
  decide (m.type = MatchType.value) && decide (m.path = p)

/-- A conditionally emitted Value match never counts as a Key match. -/
theorem countP_value_singleton_key (p path text : String) (b : Bool) :
    (if b then [(⟨path, .value, text⟩ : SearchMatch)] else []).countP (isKeyMatchAt p) = 0 := by
  split <;> simp [isKeyMatchAt, List.countP_cons]

/-- A conditionally emitted Value match at `path` contributes at most the
count of `p` in `[path]`. -/
theorem countP_value_singleton_le (p path text : String) (b : Bool) :
    (if b then [(⟨path, .value, text⟩ : SearchMatch)] else []).countP (isValueMatchAt p) ≤
      List.count p [path] := by
  by_cases hp : path = p
  · subst hp
    split <;> simp [isValueMatchAt, List.countP_cons]
  · split <;> simp [isValueMatchAt, hp, List.count_cons, Ne.symm hp]

/-- Key-match count bound for the array walk. -/
theorem searchArr_key_countP (cs : Bool) (q p : String) (l : List Json)
    (h : ∀ x ∈ l, ∀ path, (searchAux cs q x path).countP (isKeyMatchAt p) ≤
      (keyPaths x path).count p) :
    ∀ path i, (searchArr cs q l path i).countP (isKeyMatchAt p) ≤
      (keyPathsArr l path i).count p := by
  induction l with
  | nil => intro path i; simp [searchArr, keyPathsArr]
  | cons x xs ih =>
    intro path i
    rw [searchArr, keyPathsArr, List.countP_append, List.count_append]
    exact Nat.add_le_add (h x (by simp) _) (ih (fun y hy => h y (by simp [hy])) path (i + 1))

/-- Key-match count bound for the object walk. -/
theorem searchObj_key_countP (cs : Bool) (q p : String) (l : List (String × Json))
    (h : ∀ kv ∈ l, ∀ path, (searchAux cs q kv.2 path).countP (isKeyMatchAt p) ≤
      (keyPaths kv.2 path).count p) :
    ∀ path, (searchObj cs q l path).countP (isKeyMatchAt p) ≤
      (keyPathsObj l path).count p := by
  induction l with
  | nil => intro path; simp [searchObj, keyPathsObj]
  | cons kv rest ih =>
    intro path
    cases kv with
    | mk k v =>
      rw [searchObj, keyPathsObj]
      simp only [List.countP_append, List.count_cons, List.count_append]
      have h1 : ∀ ck : String, (if jsIncludes ck q
          then [(⟨if path = "" then k else path ++ "." ++ k, .key, k⟩ : SearchMatch)]
          else []).countP (isKeyMatchAt p) ≤
          (if ((if path = "" then k else path ++ "." ++ k) == p) = true then 1 else 0) := by
        intro ck
        by_cases hinc : jsIncludes ck q
        · rw [if_pos hinc]
          by_cases hp : (if path = "" then k else path ++ "." ++ k) = p
          · simp [isKeyMatchAt, hp, List.countP_cons]
          · simp [List.countP_cons, isKeyMatchAt, hp]
        · rw [if_neg hinc]
          simp
      have h1 := h1 (if cs = true then k else k.toLower)
      have h2 := h (k, v) (by simp) (if path = "" then k else path ++ "." ++ k)
      dsimp only at h2
      have h3 := ih (fun y hy => h y (by simp [hy])) path
      omega

/-- Key-match count bound: the search emits at most as many Key matches at
path `p` as there are key nodes whose path is `p`. -/
theorem searchAux_key_countP (cs : Bool) (q p : String) :
    ∀ v path, (searchAux cs q v path).countP (isKeyMatchAt p) ≤
      (keyPaths v path).count p := by
  intro v
  induction v using Json.structuralInduction with
  | hnull =>
    intro path
    simp only [searchAux, keyPaths]
    rw [countP_value_singleton_key]
    simp
  | hbool b =>
    intro path
    simp only [searchAux, keyPaths]
    rw [countP_value_singleton_key]
    simp
  | hnum n =>
    intro path
    simp only [searchAux, keyPaths]
    rw [countP_value_singleton_key]
    simp
  | hstr s =>
    intro path
    simp only [searchAux, keyPaths]
    rw [countP_value_singleton_key]
    simp
  | harr l ih =>
    intro path
    rw [show searchAux cs q (.arr l) path = searchArr cs q l path 0 from by simp [searchAux],
        show keyPaths (.arr l) path = keyPathsArr l path 0 from by simp [keyPaths]]
    exact searchArr_key_countP cs q p l ih path 0
  | hobj l ih =>
    intro path
    rw [show searchAux cs q (.obj l) path = searchObj cs q l path from by simp [searchAux],
        show keyPaths (.obj l) path = keyPathsObj l path from by simp [keyPaths]]
    exact searchObj_key_countP cs q p l ih path

/-- Value-match count bound for the array walk. -/
theorem searchArr_value_countP (cs : Bool) (q p : String) (l : List Json)
    (h : ∀ x ∈ l, ∀ path, (searchAux cs q x path).countP (isValueMatchAt p) ≤
      (leafPaths x path).count p) :
    ∀ path i, (searchArr cs q l path i).countP (isValueMatchAt p) ≤
      (leafPathsArr l path i).count p := by
  induction l with
  | nil => intro path i; simp [searchArr, leafPathsArr]
  | cons x xs ih =>
    intro path i
    rw [searchArr, leafPathsArr, List.countP_append, List.count_append]
    exact Nat.add_le_add (h x (by simp) _) (ih (fun y hy => h y (by simp [hy])) path (i + 1))

/-- Value-match count bound for the object walk (the key push is never a
Value match). -/
theorem searchObj_value_countP (cs : Bool) (q p : String) (l : List (String × Json))
    (h : ∀ kv ∈ l, ∀ path, (searchAux cs q kv.2 path).countP (isValueMatchAt p) ≤
      (leafPaths kv.2 path).count p) :
    ∀ path, (searchObj cs q l path).countP (isValueMatchAt p) ≤
      (leafPathsObj l path).count p := by
  induction l with
  | nil => intro path; simp [searchObj, leafPathsObj]
  | cons kv rest ih =>
    intro path
    cases kv with
    | mk k v =>
      rw [searchObj, leafPathsObj]
      simp only [List.countP_append, List.count_append]
      have h1 : ∀ ck : String, (if jsIncludes ck q
          then [(⟨if path = "" then k else path ++ "." ++ k, .key, k⟩ : SearchMatch)]
          else []).countP (isValueMatchAt p) = 0 := by
        intro ck
        by_cases hinc : jsIncludes ck q
        · rw [if_pos hinc]
          simp [List.countP_cons, isValueMatchAt]
        · rw [if_neg hinc]
          simp
      have h1 := h1 (if cs = true then k else k.toLower)
      have h2 := h (k, v) (by simp) (if path = "" then k else path ++ "." ++ k)
      dsimp only at h2
      have h3 := ih (fun y hy => h y (by simp [hy])) path
      omega

/-- Value-match count bound: the search emits at most as many Value matches at
path `p` as there are leaves whose path is `p`. -/
theorem searchAux_value_countP (cs : Bool) (q p : String) :
    ∀ v path, (searchAux cs q v path).countP (isValueMatchAt p) ≤
      (leafPaths v path).count p := by
  intro v
  induction v using Json.structuralInduction with
  | hnull =>
    intro path
    simp only [searchAux, leafPaths]
    exact countP_value_singleton_le p path _ _
  | hbool b =>
    intro path
    simp only [searchAux, leafPaths]
    exact countP_value_singleton_le p path _ _
  | hnum n =>
    intro path
    simp only [searchAux, leafPaths]
    exact countP_value_singleton_le p path _ _
  | hstr s =>
    intro path
    simp only [searchAux, leafPaths]
    exact countP_value_singleton_le p path _ _
  | harr l ih =>
    intro path
    rw [show searchAux cs q (.arr l) path = searchArr cs q l path 0 from by simp [searchAux],
        show leafPaths (.arr l) path = leafPathsArr l path 0 from by simp [leafPaths]]
    exact searchArr_value_countP cs q p l ih path 0
  | hobj l ih =>
    intro path
    rw [show searchAux cs q (.obj l) path = searchObj cs q l path from by simp [searchAux],
        show leafPaths (.obj l) path = leafPathsObj l path from by simp [leafPaths]]
    exact searchObj_value_countP cs q p l ih path

/-- C7 counterexample: the key `"a.b"` and the nested key path `a`→`b` produce
the same path string, so the search returns two Value matches at path
`"a.b"`. -/
theorem searchJson_duplicate_path_counterexample :
    (searchJson (.obj [("a.b", .str "x"), ("a", .obj [("b", .str "x")])]) "x" true).countP
      (isValueMatchAt "a.b") = 2 ∧
    ¬ (searchJson (.obj [("a.b", .str "x"), ("a", .obj [("b", .str "x")])]) "x" true).countP
      (isValueMatchAt "a.b") ≤ 1 := by
  have h : (searchJson (.obj [("a.b", .str "x"), ("a", .obj [("b", .str "x")])]) "x" true).countP
      (isValueMatchAt "a.b") = 2 := by
    simp [searchJson, searchAux, searchObj, jsIncludes, isValueMatchAt, List.countP_cons]
    decide
  exact ⟨h, by omega⟩

/-- C7 amended: whenever the key-node paths of `v` are pairwise distinct and
the leaf paths of `v` are pairwise distinct (collisions require keys that
contain `.` or index-bracket text), the search result contains at most one
Key match and at most one Value match for any given path string; in general
each traversal node contributes at most one Key and one Value match. -/
theorem searchJson_at_most_one_match_per_path (v : Json)
    (hk : (keyPaths v "").Nodup) (hl : (leafPaths v "").Nodup)
    (q : String) (cs : Bool) (p : String) :
    (searchJson v q cs).countP (isKeyMatchAt p) ≤ 1 ∧
    (searchJson v q cs).countP (isValueMatchAt p) ≤ 1 := by
  constructor
  · calc (searchJson v q cs).countP (isKeyMatchAt p)
        ≤ (keyPaths v "").count p := searchAux_key_countP cs _ p v ""
      _ ≤ 1 := List.nodup_iff_count_le_one.mp hk p
  · calc (searchJson v q cs).countP (isValueMatchAt p)
        ≤ (leafPaths v "").count p := searchAux_value_countP cs _ p v ""
      _ ≤ 1 := List.nodup_iff_count_le_one.mp hl p

/-- C7 witness: a concrete value with distinct node paths, query and path at
which both bounds hold. -/
theorem searchJson_at_most_one_match_per_path_witness :
    ((keyPaths (.obj [("a", .str "x")]) "").Nodup ∧
     (leafPaths (.obj [("a", .str "x")]) "").Nodup) ∧
    ((searchJson (.obj [("a", .str "x")]) "x" false).countP (isKeyMatchAt "a") ≤ 1 ∧
     (searchJson (.obj [("a", .str "x")]) "x" false).countP (isValueMatchAt "a") ≤ 1) := by
  have hk : (keyPaths (.obj [("a", .str "x")]) "").Nodup := by
    simp [keyPaths, keyPathsObj]
  have hl : (leafPaths (.obj [("a", .str "x")]) "").Nodup := by
    simp [leafPaths, leafPathsObj]
  exact ⟨⟨hk, hl⟩, searchJson_at_most_one_match_per_path _ hk hl "x" false "a"⟩

/-! ## Key sorter (`sortObjectKeys` in `src/utils/jsonUtils.ts`) -/

/-- JS `a.localeCompare(b, undefined, { sensitivity: "base" }) <= 0`, i.e.
case-insensitive locale comparison, modelled for ASCII data as comparison of
the lowercased strings. -/
def localeLe (a b : String) : Bool := decide (a.toLower ≤ b.toLower)

/-- Entry comparator used on `Object.keys(value).sort(...)`: compare by key.
Sorting the unique keys and rebuilding the object equals stably sorting the
entry list by key. -/
def entryLe (a b : String × Json) : Bool := localeLe a.1 b.1

/-- `sortObjectKeys` from `jsonUtils.ts`: primitives pass through, arrays map
recursively in place, objects are rebuilt with keys sorted by the locale
comparator (JS `Array.prototype.sort` is stable, as is `List.mergeSort`).
`attach` only carries the membership proof for termination. -/
def sortObjectKeys : Json → Json
  | .null => .null
  | .bool b => .bool b
  | .num n => .num n
  | .str s => .str s
  | .arr l => .arr (l.attach.map (fun xh =>
      match xh with
      | ⟨x, hx⟩ =>
        have : sizeOf x < 1 + sizeOf l := by
          have := List.sizeOf_lt_of_mem hx
          omega
        sortObjectKeys x))
  | .obj l => .obj ((l.mergeSort entryLe).attach.map (fun kvh =>
      match kvh with
      | ⟨(k, v), hkv⟩ =>
        have : sizeOf v < 1 + sizeOf l := by
          have hmem : (k, v) ∈ l := ((l.mergeSort_perm entryLe).mem_iff).mp hkv
          have h1 := List.sizeOf_lt_of_mem hmem
          simp_arith at h1
          omega
        (k, sortObjectKeys v)))
termination_by v => sizeOf v

/-- Unfolding rule for arrays. -/
theorem sortObjectKeys_arr (l : List Json) :
    sortObjectKeys (.arr l) = .arr (l.map sortObjectKeys) := by
  simp [sortObjectKeys]

/-- Unfolding rule for objects. -/
theorem sortObjectKeys_obj (l : List (String × Json)) :
    sortObjectKeys (.obj l) =
      .obj ((l.mergeSort entryLe).map (fun kv => (kv.1, sortObjectKeys kv.2))) := by
  simp [sortObjectKeys, List.map_attach]

/-- The entry comparator is transitive. -/
theorem entryLe_trans : ∀ a b c : String × Json,
    entryLe a b = true → entryLe b c = true → entryLe a c = true := by
  intro a b c h1 h2
  simp only [entryLe, localeLe, decide_eq_true_eq] at *
  exact le_trans h1 h2

/-- The entry comparator is total. -/
theorem entryLe_total : ∀ a b : String × Json, (entryLe a b || entryLe b a) = true := by
  intro a b
  simp only [entryLe, localeLe, Bool.or_eq_true, decide_eq_true_eq]
  exact le_total _ _

/-- Applying the key sorter twice equals applying it once. -/
theorem sortObjectKeys_idem : ∀ v, sortObjectKeys (sortObjectKeys v) = sortObjectKeys v := by
  intro v
  induction v using Json.structuralInduction with
  | hnull => simp [sortObjectKeys]
  | hbool b => simp [sortObjectKeys]
  | hnum n => simp [sortObjectKeys]
  | hstr s => simp [sortObjectKeys]
  | harr l ih =>
    rw [sortObjectKeys_arr, sortObjectKeys_arr, List.map_map]
    congr 1
    apply List.map_congr_left
    intro x hx
    exact ih x hx
  | hobj l ih =>
    rw [sortObjectKeys_obj, sortObjectKeys_obj]
    have hsorted : List.Pairwise (fun a b => entryLe a b = true) (l.mergeSort entryLe) :=
      List.sorted_mergeSort entryLe_trans entryLe_total l
    have hsorted' : List.Pairwise (fun a b => entryLe a b = true)
        ((l.mergeSort entryLe).map (fun kv => (kv.1, sortObjectKeys kv.2))) := by
      refine List.Pairwise.map _ ?_ hsorted
      intro a b hab
      exact hab
    rw [List.mergeSort_of_sorted hsorted', List.map_map]
    congr 1
    apply List.map_congr_left
    intro kv hkv
    have hmem : kv ∈ l := ((l.mergeSort_perm entryLe).mem_iff).mp hkv
    simp only [Function.comp_apply]
    rw [ih kv hmem]

mutual

/-- Structural equality up to reordering of object entries: arrays are related
pointwise in order, leaves are equal, and objects are related entrywise (same
key, related value) followed by a permutation of the entry list. -/
inductive KeyPerm : Json → Json → Prop where
  | null : KeyPerm .null .null
  | bool (b : Bool) : KeyPerm (.bool b) (.bool b)
  | num (n : Int) : KeyPerm (.num n) (.num n)
  | str (s : String) : KeyPerm (.str s) (.str s)
  | arr {l₁ l₂ : List Json} : KeyPermList l₁ l₂ →
      KeyPerm (.arr l₁) (.arr l₂)
  | obj {l₁ l' l₂ : List (String × Json)} :
      KeyPermEntries l₁ l' → l'.Perm l₂ → KeyPerm (.obj l₁) (.obj l₂)

/-- Pointwise `KeyPerm` between two lists (array elements, in order). -/
inductive KeyPermList : List Json → List Json → Prop where
  | nil : KeyPermList [] []
  | cons {x y : Json} {xs ys : List Json} : KeyPerm x y → KeyPermList xs ys →
      KeyPermList (x :: xs) (y :: ys)

/-- Pointwise entry relation: same key, `KeyPerm`-related value. -/
inductive KeyPermEntries : List (String × Json) → List (String × Json) → Prop where
  | nil : KeyPermEntries [] []
  | cons (k : String) {v w : Json} {xs ys : List (String × Json)} :
      KeyPerm v w → KeyPermEntries xs ys →
      KeyPermEntries ((k, v) :: xs) ((k, w) :: ys)

end

/-- Pointwise array relation between a list and its image under a map. -/
theorem keyPermList_map_self (f : Json → Json) :
    ∀ l : List Json, (∀ x ∈ l, KeyPerm x (f x)) → KeyPermList l (l.map f) := by
  intro l
  induction l with
  | nil => intro _; exact .nil
  | cons x xs ih =>
    intro h
    rw [List.map_cons]
    exact .cons (h x (by simp)) (ih (fun y hy => h y (by simp [hy])))

/-- Pointwise entry relation between an entry list and its value-mapped
image. -/
theorem keyPermEntries_map_self (g : Json → Json) :
    ∀ l : List (String × Json), (∀ kv ∈ l, KeyPerm kv.2 (g kv.2)) →
      KeyPermEntries l (l.map (fun kv => (kv.1, g kv.2))) := by
  intro l
  induction l with
  | nil => intro _; exact .nil
  | cons kv xs ih =>
    intro h
    cases kv with
    | mk k v =>
      rw [List.map_cons]
      exact .cons k (h (k, v) (by simp)) (ih (fun y hy => h y (by simp [hy])))

/-- The key sorter only reorders object entries: it never changes a leaf, an
array's element order, or any value, up to recursive key reordering. -/
theorem sortObjectKeys_keyPerm : ∀ v, KeyPerm v (sortObjectKeys v) := by
  intro v
  induction v using Json.structuralInduction with
  | hnull => rw [show sortObjectKeys .null = .null from by simp [sortObjectKeys]]; exact .null
  | hbool b => rw [show sortObjectKeys (.bool b) = .bool b from by simp [sortObjectKeys]]; exact .bool b
  | hnum n => rw [show sortObjectKeys (.num n) = .num n from by simp [sortObjectKeys]]; exact .num n
  | hstr s => rw [show sortObjectKeys (.str s) = .str s from by simp [sortObjectKeys]]; exact .str s
  | harr l ih =>
    rw [sortObjectKeys_arr]
    exact KeyPerm.arr (keyPermList_map_self _ l ih)
  | hobj l ih =>
    rw [sortObjectKeys_obj]
    refine @KeyPerm.obj l (l.map (fun kv => (kv.1, sortObjectKeys kv.2))) _ ?_ ?_
    · exact keyPermEntries_map_self _ l ih
    · exact ((l.mergeSort_perm entryLe).symm).map _

/-- C5: the key sorter is idempotent, and its output differs from its input
only in object-entry order (arrays keep element order, leaves are unchanged);
the embedding is a pure function, so the input value is never mutated. -/
theorem sortKeys_idempotent_and_preserving (v : Json) :
    sortObjectKeys (sortObjectKeys v) = sortObjectKeys v ∧
    KeyPerm v (sortObjectKeys v) :=
  ⟨sortObjectKeys_idem v, sortObjectKeys_keyPerm v⟩

/-! ## XML converter (`jsonToXml` in `src/components/JsonFormatter` utils) -/

/-- Characters allowed by the tag-name regex `[a-zA-Z0-9_-]`. -/
def isNameChar (c : Char) : Bool := c.isAlpha || c.isDigit || c = '_' || c = '-'

/-- Tag sanitization from `toXmlElement`:
`tagName.replace(/[^a-zA-Z0-9_-]/g, "_").replace(/^[^a-zA-Z_]/, "_")` — every
disallowed character becomes `_`, then a disallowed *first* character (e.g. a
digit or `-`) is itself replaced by `_` (the anchored non-global regex
replaces one leading character, it does not prepend). -/
def sanitizeTag (tagName : String) : String :=
  let step1 := tagName.data.map (fun c => if isNameChar c then c else '_')
  ⟨match step1 with
    | [] => []
    | c :: rest => if c.isAlpha || c = '_' then c :: rest else '_' :: rest⟩

/-- A single-quote character, kept out of string literals. -/
def singleQuote : Char := Char.ofNat 39

/-- `escapeXml` from `toXmlElement`: five sequential global replacements;
earlier passes run first, so entity ampersands introduced later are not
re-escaped. -/
def escapeXml (str : String) : String :=
  ((((str.replace "&" "&amp;").replace "<" "&lt;").replace ">" "&gt;").replace
    "\"" "&quot;").replace (String.singleton singleQuote) "&apos;"

/-- Two spaces of indentation per nesting depth. -/
def xmlIndent (depth : Nat) : String := ⟨List.replicate (2 * depth) ' '⟩

mutual

/-- `toXmlElement(value, tagName, depth)` from the XML converter. -/
def toXmlElement : Json → String → Nat → String
  | .null, tagName, depth =>
      xmlIndent depth ++ "<" ++ sanitizeTag tagName ++ " xsi:nil=\"true\"/>"
  | .bool b, tagName, depth =>
      let safeTag := sanitizeTag tagName
      xmlIndent depth ++ "<" ++ safeTag ++ ">" ++ (if b then "true" else "false") ++
        "</" ++ safeTag ++ ">"
  | .num n, tagName, depth =>
      let safeTag := sanitizeTag tagName
      xmlIndent depth ++ "<" ++ safeTag ++ ">" ++ toString n ++ "</" ++ safeTag ++ ">"
  | .str s, tagName, depth =>
      let safeTag := sanitizeTag tagName
      xmlIndent depth ++ "<" ++ safeTag ++ ">" ++ escapeXml s ++ "</" ++ safeTag ++ ">"
  | .arr l, tagName, depth =>
      let safeTag := sanitizeTag tagName
      if l.isEmpty then xmlIndent depth ++ "<" ++ safeTag ++ "/>"
      else
        xmlIndent depth ++ "<" ++ safeTag ++ ">\n" ++
          String.intercalate "\n" (xmlItems l (depth + 1)) ++ "\n" ++
          xmlIndent depth ++ "</" ++ safeTag ++ ">"
  | .obj l, tagName, depth =>
      let safeTag := sanitizeTag tagName
      if l.isEmpty then xmlIndent depth ++ "<" ++ safeTag ++ "/>"
      else
        xmlIndent depth ++ "<" ++ safeTag ++ ">\n" ++
          String.intercalate "\n" (xmlChildren l (depth + 1)) ++ "\n" ++
          xmlIndent depth ++ "</" ++ safeTag ++ ">"
termination_by v _ _ => (sizeOf v, 0)

/-- The `value.map((item) => toXmlElement(item, "item", depth + 1))` loop. -/
def xmlItems : List Json → Nat → List String
  | [], _ => []
  | x :: xs, depth => toXmlElement x "item" depth :: xmlItems xs depth
termination_by l _ => (sizeOf l, 1)

/-- The `entries.map(([key, val]) => toXmlElement(val, key, depth + 1))`
loop. -/
def xmlChildren : List (String × Json) → Nat → List String
  | [], _ => []
  | (k, v) :: rest, depth => toXmlElement v k depth :: xmlChildren rest depth
termination_by l _ => (sizeOf l, 1)

end

/-- `jsonToXml(data, rootName)`. -/
def jsonToXml (data : Json) (rootName : String) : String :=
  "<?xml version=\"1.0\" encoding=\"UTF-8\"?>\n" ++ toXmlElement data rootName 0

/-- C4 counterexample: the sanitizer replaces a leading digit instead of
prefixing an underscore, so `"1abc"` becomes `"_abc"`, not `"_1abc"` — the
original first character is lost. -/
theorem sanitizeTag_leading_digit_counterexample :
    sanitizeTag "1abc" = "_abc" ∧ sanitizeTag "1abc" ≠ "_1abc" := by
  constructor <;> decide

/-- C4 amended: for every nonempty tag name, the sanitizer keeps the length,
rewrites every non-first character outside `[A-Za-z0-9_-]` to `_` (keeping
allowed ones), rewrites the first character to `_` unless it is a letter or
underscore (it does not prepend), and the emitted tag always starts with a
letter or underscore. -/
theorem sanitizeTag_spec (s : String) (h : s.data ≠ []) :
    (sanitizeTag s).length = s.length ∧
    ((sanitizeTag s).data)[0]? =
      ((s.data)[0]?).map (fun c => if c.isAlpha ∨ c = '_' then c else '_') ∧
    (∀ i, 1 ≤ i → ((sanitizeTag s).data)[i]? =
      ((s.data)[i]?).map (fun c => if isNameChar c then c else '_')) ∧
    (∃ c rest, (sanitizeTag s).data = c :: rest ∧ (c.isAlpha ∨ c = '_')) := by
  match hs : s.data with
  | [] => exact absurd hs h
  | c :: rest =>
    have hdata : (sanitizeTag s).data =
        (if (if isNameChar c then c else '_').isAlpha ∨ (if isNameChar c then c else '_') = '_'
         then (if isNameChar c then c else '_')
         else '_') :: rest.map (fun x => if isNameChar x then x else '_') := by
      show (match s.data.map (fun x => if isNameChar x then x else '_') with
        | [] => []
        | c :: rest => if c.isAlpha || c = '_' then c :: rest else '_' :: rest) = _
      rw [hs, List.map_cons]
      by_cases h1 : (if isNameChar c then c else '_').isAlpha
      · simp [h1]
      · by_cases h2 : (if isNameChar c then c else '_') = '_' <;> simp [h1, h2]
    have hhead : (if (if isNameChar c then c else '_').isAlpha ∨
        (if isNameChar c then c else '_') = '_'
        then (if isNameChar c then c else '_') else '_') =
        (if c.isAlpha ∨ c = '_' then c else '_') := by
      by_cases hn : isNameChar c
      · rw [if_pos hn]
      · rw [if_neg hn]
        have hca : ¬ c.isAlpha := by
          intro hc
          exact hn (by simp [isNameChar, hc])
        have hcu : ¬ c = '_' := by
          intro hc
          exact hn (by simp [isNameChar, hc])
        simp [hca, hcu]
    refine ⟨?_, ?_, ?_, ?_⟩
    · show (sanitizeTag s).data.length = s.data.length
      rw [hdata, hs]
      simp
    · rw [hdata, hhead]
      simp
    · intro i hi
      rw [hdata]
      match i, hi with
      | Nat.succ j, _ =>
        simp
    · exact ⟨_, _, by rw [hdata, hhead], by
        by_cases h1 : c.isAlpha
        · simp [h1]
        · by_cases h2 : c = '_' <;> simp [h1, h2]⟩

/-- C4 witness: the amended sanitizer specification evaluated at the concrete
tag name `"1abc"`. -/
theorem sanitizeTag_spec_witness :
    ("1abc" : String).data ≠ [] ∧
    ((sanitizeTag "1abc").length = ("1abc" : String).length ∧
    ((sanitizeTag "1abc").data)[0]? =
      ((("1abc" : String).data)[0]?).map (fun c => if c.isAlpha ∨ c = '_' then c else '_') ∧
    (∀ i, 1 ≤ i → ((sanitizeTag "1abc").data)[i]? =
      ((("1abc" : String).data)[i]?).map (fun c => if isNameChar c then c else '_')) ∧
    (∃ c rest, (sanitizeTag "1abc").data = c :: rest ∧ (c.isAlpha ∨ c = '_'))) :=
  ⟨by decide, sanitizeTag_spec "1abc" (by decide)⟩

/-! ## YAML converter (`jsonToYaml`) and JSON stringification helpers -/

/-- One hexadecimal digit (lowercase), for JSON string escapes. -/
def hexDigit (n : Nat) : Char :=
  if n < 10 then Char.ofNat (48 + n) else Char.ofNat (87 + n)

/-- Four-hex-digit rendering of a code point below 0x10000. -/
def hex4 (n : Nat) : String :=
  ⟨[hexDigit ((n / 4096) % 16), hexDigit ((n / 256) % 16),
    hexDigit ((n / 16) % 16), hexDigit (n % 16)]⟩

/-- Escape of a single character inside a JSON string literal, as
`JSON.stringify` produces it. -/
def jsonEscapeChar (c : Char) : String :=
  if c = '"' then "\\\""
  else if c = '\\' then "\\\\"
  else if c = '\n' then "\\n"
  else if c = '\t' then "\\t"
  else if c = '\r' then "\\r"
  else if c = Char.ofNat 8 then "\\b"
  else if c = Char.ofNat 12 then "\\f"
  else if c.toNat < 32 then "\\u" ++ hex4 c.toNat
  else String.singleton c

/-- `JSON.stringify` applied to a string: double quotes around the escaped
character data. -/
def jsonQuote (s : String) : String :=
  "\"" ++ String.join (s.data.map jsonEscapeChar) ++ "\""

mutual

/-- Compact `JSON.stringify` of a value (used by the CSV converter to embed
nested arrays in a single cell). -/
def jsonStringify : Json → String
  | .null => "null"
  | .bool b => if b then "true" else "false"
  | .num n => toString n
  | .str s => jsonQuote s
  | .arr l => "[" ++ String.intercalate "," (jsonStringifyList l) ++ "]"
  | .obj l => "\x7b" ++ String.intercalate "," (jsonStringifyEntries l) ++ "\x7d"
termination_by v => (sizeOf v, 0)

def jsonStringifyList : List Json → List String
  | [] => []
  | x :: xs => jsonStringify x :: jsonStringifyList xs
termination_by l => (sizeOf l, 1)

def jsonStringifyEntries : List (String × Json) → List String
  | [] => []
  | (k, v) :: rest => (jsonQuote k ++ ":" ++ jsonStringify v) :: jsonStringifyEntries rest
termination_by l => (sizeOf l, 1)

end

/-- The regex `/^[\d.]+$/`: one or more characters, all digits or dots. -/
def isYamlNumericLike (s : String) : Bool :=
  !s.isEmpty && s.data.all (fun c => c.isDigit || c = '.')

/-- The YAML keyword list checked case-insensitively before quoting. -/
def yamlKeywords : List String := ["true", "false", "null", "yes", "no", "on", "off"]

/-- The string-quoting condition of `jsonToYaml`. -/
def yamlNeedsQuoting (s : String) : Bool :=
  s == "" || jsIncludes s "\n" || jsIncludes s ":" || jsIncludes s "#" ||
  s.startsWith " " || s.endsWith " " ||
  isYamlNumericLike s || yamlKeywords.contains s.toLower

/-- The regex `/^[\w-]+$/` guarding bare object keys. -/
def isBareYamlKey (key : String) : Bool :=
  !key.isEmpty && key.data.all (fun c => c.isAlpha || c.isDigit || c = '_' || c = '-')

/-- YAML indentation: two spaces per level. -/
def yamlIndent (indent : Nat) : String := ⟨List.replicate (2 * indent) ' '⟩

mutual

/-- `jsonToYaml(data, indent)` from the YAML converter.  The JS `undefined`
branch is unreachable for parsed JSON and has no counterpart in `Json`. -/
def jsonToYaml : Json → Nat → String
  | .null, _ => "null"
  | .bool b, _ => if b then "true" else "false"
  | .num n, _ => toString n
  | .str s, _ => if yamlNeedsQuoting s then jsonQuote s else s
  | .arr l, indent =>
      if l.isEmpty then "[]"
      else "\n" ++ String.intercalate "\n" (yamlItems l indent)
  | .obj l, indent =>
      if l.isEmpty then "\x7b\x7d"
      else (if indent = 0 then "" else "\n") ++
        String.intercalate "\n" (yamlEntries l indent)
termination_by v _ => (sizeOf v, 0)

/-- The `data.map((item) => ...)` loop over array elements. -/
def yamlItems : List Json → Nat → List String
  | [], _ => []
  | item :: rest, indent =>
      let spaces := yamlIndent indent
      let value := jsonToYaml item (indent + 1)
      (match item with
       | .arr _ => spaces ++ "- " ++ value.trimLeft
       | .obj _ => spaces ++ "- " ++ value.trimLeft
       | _ => spaces ++ "- " ++ value) :: yamlItems rest indent
termination_by l _ => (sizeOf l, 1)

/-- The `entries.map(([key, value]) => ...)` loop over object entries. -/
def yamlEntries : List (String × Json) → Nat → List String
  | [], _ => []
  | (key, value) :: rest, indent =>
      let spaces := yamlIndent indent
      let yamlValue := jsonToYaml value (indent + 1)
      let sk := if isBareYamlKey key then key else jsonQuote key
      (match value with
       | .arr a => if a.isEmpty then spaces ++ sk ++ ": " ++ yamlValue
          else spaces ++ sk ++ ":" ++ yamlValue
       | .obj o => if o.isEmpty then spaces ++ sk ++ ": " ++ yamlValue
          else spaces ++ sk ++ ":" ++ yamlValue
       | _ => spaces ++ sk ++ ": " ++ yamlValue) :: yamlEntries rest indent
termination_by l _ => (sizeOf l, 1)

end

/-! ## CSV converter (`jsonToCsv` / `flattenObject`) -/

/-- JS object property write `result[fullKey] = v`: overwrite in place when
the key exists, append otherwise. -/
def objSet (m : List (String × String)) (k v : String) : List (String × String) :=
  if (m.lookup k).isSome
  then m.map (fun kv => if kv.1 = k then (kv.1, v) else kv)
  else m ++ [(k, v)]

/-- JS `Set.add` on the shared column-name set. -/
def addKey (ks : List String) (k : String) : List String :=
  if k ∈ ks then ks else ks ++ [k]

/-- `flattenObject(obj, prefix, result, keys)` from the CSV converter, in
value-passing form over the (row, column-set) state: nested plain objects
recurse with a dot-joined prefix, arrays are embedded as a JSON text blob,
null becomes the literal text `"null"`, other primitives are `String(value)`-
rendered. -/
def flattenObject : List (String × Json) → String → List (String × String) →
    List String → List (String × String) × List String
  | [], _, result, keys => (result, keys)
  | (key, value) :: rest, pre, result, keys =>
    let fullKey := if pre = "" then key else pre ++ "." ++ key
    match value with
    | .null => flattenObject rest pre (objSet result fullKey "null") (addKey keys fullKey)
    | .obj entries =>
        let rk := flattenObject entries fullKey result keys
        flattenObject rest pre rk.1 rk.2
    | .arr a =>
        flattenObject rest pre (objSet result fullKey (jsonStringify (.arr a)))
          (addKey keys fullKey)
    | .bool b =>
        flattenObject rest pre (objSet result fullKey (if b then "true" else "false"))
          (addKey keys fullKey)
    | .num n =>
        flattenObject rest pre (objSet result fullKey (toString n)) (addKey keys fullKey)
    | .str s =>
        flattenObject rest pre (objSet result fullKey s) (addKey keys fullKey)

/-- The `for (const item of arr)` loop of `jsonToCsv`: primitives become a
one-column `value` row; objects (and arrays, whose `Object.entries` are their
indexed elements) are flattened.  The column set is shared across rows. -/
def collectRows : List Json → List (List (String × String)) → List String →
    List (List (String × String)) × List String
  | [], flatRows, allKeys => (flatRows, allKeys)
  | item :: rest, flatRows, allKeys =>
    match item with
    | .obj entries =>
        let rk := flattenObject entries "" [] allKeys
        collectRows rest (flatRows ++ [rk.1]) rk.2
    | .arr a =>
        let rk := flattenObject (a.enum.map (fun iv => (toString iv.1, iv.2))) "" [] allKeys
        collectRows rest (flatRows ++ [rk.1]) rk.2
    | .null => collectRows rest (flatRows ++ [[(("value" : String), ("null" : String))]])
        (addKey allKeys "value")
    | .bool b => collectRows rest
        (flatRows ++ [[(("value" : String), (if b then "true" else "false"))]])
        (addKey allKeys "value")
    | .num n => collectRows rest (flatRows ++ [[(("value" : String), toString n)]])
        (addKey allKeys "value")
    | .str s => collectRows rest (flatRows ++ [[(("value" : String), s)]])
        (addKey allKeys "value")

/-- `escapeCsvValue` from `jsonToCsv`: quote and double internal quotes when
the cell contains a comma, double quote, or newline. -/
def escapeCsvValue (val : String) : String :=
  if jsIncludes val "," || jsIncludes val "\"" || jsIncludes val "\n"
  then "\"" ++ val.replace "\"" "\"\"" ++ "\""
  else val

/-- Code-unit lexicographic order on character lists. -/
def strLeChars : List Char → List Char → Bool
  | [], _ => true
  | _ :: _, [] => false
  | a :: as, b :: bs =>
      if a.toNat < b.toNat then true
      else if b.toNat < a.toNat then false
      else strLeChars as bs

/-- The JS default `Array.prototype.sort` comparator on strings: lexicographic
by UTF-16 code units, modelled on characters. -/
def jsStrLe (a b : String) : Bool := strLeChars a.data b.data

/-- Result shape of `jsonToCsv`: `{ success, csv?, error? }`. -/
structure CsvResult where
  success : Bool
  csv : Option String
  error : Option String
deriving DecidableEq, Repr

/-- CSV assembly over a top-level array (after the wrapping step). -/
def csvOfArray (arr : List Json) : CsvResult :=
  if arr.isEmpty then ⟨true, some "", none⟩
  else
    let rk := collectRows arr [] []
    let headers := rk.2.mergeSort jsStrLe
    let headerRow := String.intercalate "," (headers.map escapeCsvValue)
    let dataRows := rk.1.map (fun row =>
      String.intercalate "," (headers.map (fun h => escapeCsvValue ((row.lookup h).getD ""))))
    ⟨true, some (String.intercalate "\n" (headerRow :: dataRows)), none⟩

/-- `jsonToCsv(data)`: arrays pass through, a single object is wrapped in a
one-element array, any other top level fails with a descriptive error. -/
def jsonToCsv (data : Json) : CsvResult :=
  match data with
  | .arr arr => csvOfArray arr
  | .obj entries => csvOfArray [.obj entries]
  | _ => ⟨false, none, some "CSV export requires an array of objects or a single object"⟩

/-- Top-level values the CSV converter rejects: neither array nor object. -/
def isTopPrimitive : Json → Bool
  | .null => true
  | .bool _ => true
  | .num _ => true
  | .str _ => true
  | .arr _ => false
  | .obj _ => false

/-- The CSV assembly over an array always succeeds with a defined text. -/
theorem csvOfArray_success (l : List Json) :
    (csvOfArray l).success = true ∧ ∃ s, (csvOfArray l).csv = some s := by
  by_cases h : l.isEmpty <;> simp [csvOfArray, h]

/-- C6: `jsonToCsv` fails exactly on a top-level primitive (string, number,
boolean, null), and then carries the descriptive error string instead of
throwing; on arrays and objects it succeeds with a defined text.  `jsonToYaml`
and `jsonToXml` are total functions of the embedding — their termination
proof is the "never fail" guarantee — so every value has a defined
rendering. -/
theorem converters_failure_modes (v : Json) :
    ((jsonToCsv v).success = false ↔ isTopPrimitive v = true) ∧
    ((jsonToCsv v).success = false →
      (jsonToCsv v).error = some "CSV export requires an array of objects or a single object") ∧
    ((jsonToCsv v).success = true → ∃ s, (jsonToCsv v).csv = some s) ∧
    (∃ s, jsonToYaml v 0 = s) ∧ (∃ s, jsonToXml v "root" = s) := by
  refine ⟨?_, ?_, ?_, ⟨_, rfl⟩, ⟨_, rfl⟩⟩
  · cases v <;>
      simp [jsonToCsv, isTopPrimitive, (csvOfArray_success _).1]
  · cases v <;>
      simp [jsonToCsv, (csvOfArray_success _).1]
  · cases v <;>
      simp [jsonToCsv] <;>
      exact fun _ => (csvOfArray_success _).2

/-- C9: the CSV flattening example — nested keys become dot-joined sorted
columns, and a row missing a column emits an empty cell. -/
theorem csv_flattening_example :
    jsonToCsv (.arr [.obj [("a", .obj [("b", .num 1)])],
                     .obj [("a", .obj [("b", .num 2)]), ("c", .num 3)]]) =
      ⟨true, some "a.b,c\n1,\n2,3", none⟩ := by
  have h1 : collectRows [.obj [("a", .obj [("b", .num 1)])],
      .obj [("a", .obj [("b", .num 2)]), ("c", .num 3)]] [] [] =
      ([[("a.b", "1")], [("a.b", "2"), ("c", "3")]], ["a.b", "c"]) := by
    simp [collectRows, flattenObject, objSet, addKey]
    decide
  have h2 : (["a.b", "c"] : List String).mergeSort jsStrLe = ["a.b", "c"] :=
    List.mergeSort_of_sorted (by decide)
  simp [jsonToCsv, csvOfArray, h1, h2]
  decide

/-! ## Parse-error classifier (`src/utils/errorParser.ts`) -/

/-- The two brace characters, kept out of string literals. -/
def lbraceChar : Char := Char.ofNat 123

def rbraceChar : Char := Char.ofNat 125

/-- ASCII lowercasing of one character, modelling `toLowerCase` on the ASCII
range in a kernel-computable way. -/
def jsLowerChar (c : Char) : Char :=
  if 65 ≤ c.toNat ∧ c.toNat ≤ 90 then Char.ofNat (c.toNat + 32) else c

/-- Lowercased character data of a string. -/
def lowerData (s : String) : List Char := s.data.map jsLowerChar

/-- JS regex `\s` (whitespace class), on the characters that occur in JSON
diagnostics. -/
def jsWs (c : Char) : Bool :=
  c = ' ' || c = '\t' || c = '\n' || c = '\r' ||
  c.toNat = 11 || c.toNat = 12 || c.toNat = 160

/-- Decimal digit run to a number (`parseInt(digits, 10)`). -/
def digitsToNat (ds : List Char) : Nat :=
  ds.foldl (fun acc c => acc * 10 + (c.toNat - 48)) 0

/-- `extractPosition` from `errorParser.ts`: leftmost case-insensitive match
of `/position\s+(\d+)/` in the diagnostic text, parsed as a decimal number. -/
def extractPosition (errorMessage : String) : Option Nat :=
  let l := lowerData errorMessage
  (List.range (l.length + 1)).findSome? (fun i =>
    if "position".data.isPrefixOf (l.drop i) then
      let rest := (l.drop i).drop 8
      let ws := rest.takeWhile jsWs
      if ws.length ≥ 1 then
        let digits := (rest.drop ws.length).takeWhile Char.isDigit
        if digits.length ≥ 1 then some (digitsToNat digits) else none
      else none
    else none)

/-- Newline split of the prefix before the error position, as
`input.substring(0, position).split("\n")` produces it. -/
def splitNl : List Char → List (List Char)
  | [] => [[]]
  | c :: rest =>
    match splitNl rest with
    | [] => [[]]
    | h :: t => if c = '\n' then [] :: h :: t else (c :: h) :: t

/-- `calculateLineAndColumn` from `errorParser.ts`: 1-based line is the part
count, 1-based column is the length of the last part plus one. -/
def calculateLineAndColumn (input : String) (position : Nat) : Nat × Nat :=
  let lines := splitNl (input.data.take position)
  (lines.length, (lines.getLastD []).length + 1)

/-- Case-insensitive substring test (`/pat/i.test(msg)` for a literal
pattern). -/
def containsCI (msg pat : String) : Bool :=
  decide (lowerData pat <:+: lowerData msg)

/-- Leftmost match of `/Unexpected token (B) .* position (\d+)/i` for a
bracket set `B`, returning the captured bracket character; `.*` does not cross
a newline. -/
def findTokPos (msg : String) (bs : List Char) : Option Char :=
  let l := lowerData msg
  (List.range (l.length + 1)).findSome? (fun i =>
    if "unexpected token ".data.isPrefixOf (l.drop i) then
      match (l.drop i).drop 17 with
      | c :: ' ' :: rest =>
        if bs.contains c then
          if (List.range (rest.length + 1)).any (fun j =>
              !(rest.take j).contains '\n' &&
              " position ".data.isPrefixOf (rest.drop j) &&
              (match (rest.drop j).drop 10 with
               | d :: _ => d.isDigit
               | [] => false)) then some c else none
        else none
      | _ => none
    else none)

/-- Test of `/Unexpected token .* position (\d+)/i` (no capture needed). -/
def hasTokAnyPos (msg : String) : Bool :=
  let l := lowerData msg
  (List.range (l.length + 1)).any (fun i =>
    "unexpected token ".data.isPrefixOf (l.drop i) &&
    (let rest := (l.drop i).drop 17
     (List.range (rest.length + 1)).any (fun j =>
        !(rest.take j).contains '\n' &&
        " position ".data.isPrefixOf (rest.drop j) &&
        (match (rest.drop j).drop 10 with
         | d :: _ => d.isDigit
         | [] => false))))

/-- `input.substring(Math.max(0, p - n), p)` at character level. -/
def beforeCtx (input : String) (p n : Nat) : List Char :=
  (input.data.take p).drop (p - n)

/-- `input.substring(p, p + n)` at character level. -/
def afterCtx (input : String) (p n : Nat) : List Char :=
  (input.data.drop p).take n

/-- The regex `/"([^"]+)"\s*:\s*$/` on a context window, returning the
captured key. -/
def keyColonSuffix (s : List Char) : Option (List Char) :=
  match (s.reverse.dropWhile jsWs) with
  | ':' :: r2 =>
    (match r2.dropWhile jsWs with
     | '"' :: r4 =>
       let key := r4.takeWhile (fun c => c ≠ '"')
       if key.length ≥ 1 then
         match r4.drop key.length with
         | '"' :: _ => some key.reverse
         | _ => none
       else none
     | _ => none)
  | _ => none

/-- The regex `/"([^"]+)"\s*$/` on a context window, returning the captured
key. -/
def quotedKeySuffix (s : List Char) : Option (List Char) :=
  match (s.reverse.dropWhile jsWs) with
  | '"' :: r2 =>
    let key := r2.takeWhile (fun c => c ≠ '"')
    if key.length ≥ 1 then
      match r2.drop key.length with
      | '"' :: _ => some key.reverse
      | _ => none
    else none
  | _ => none

/-- The regex `/["}\]0-9]\s*$/`: the window ends, after trailing whitespace,
in a value terminator. -/
def endsWithValueTerm (before : List Char) : Bool :=
  match before.reverse.dropWhile jsWs with
  | c :: _ => c = '"' || c = rbraceChar || c = ']' || c.isDigit
  | [] => false

/-- The regex `/^\s*["{\[]/`: the window starts, after leading whitespace,
with a value opener. -/
def startsWithValueOpen (after : List Char) : Bool :=
  match after.dropWhile jsWs with
  | c :: _ => c = '"' || c = lbraceChar || c = '['
  | [] => false

/-- The regex `/"[^"]*$/`: an unterminated quoted string at the end of the
window, i.e. the window contains a double quote. -/
def hasOpenQuote (before : List Char) : Bool := before.contains '"'

/-- The `getMessage` of the missing-value pattern. -/
def missingValueMessage (input : String) (position : Option Nat) : String :=
  match position with
  | some p =>
    match keyColonSuffix (beforeCtx input p 50) with
    | some key => "Missing value after key \"" ++ ⟨key⟩ ++ "\""
    | none => "Missing value after key"
  | none => "Missing value after key"

/-- The `getMessage` of the generic unexpected-token pattern. -/
def genericTokenMessage (input : String) (position : Option Nat) : String :=
  match position with
  | some p =>
    let before := beforeCtx input p 20
    let after := afterCtx input p 20
    if endsWithValueTerm before && startsWithValueOpen after then
      "Missing comma between elements"
    else if hasOpenQuote before then
      "Unterminated string"
    else "Unexpected character found"
  | none => "Unexpected character found"

/-- The `getHint` of the generic unexpected-token pattern. -/
def genericTokenHint (input : String) (position : Option Nat) : String :=
  match position with
  | some p =>
    if hasOpenQuote (beforeCtx input p 20) then
      "Make sure all strings are properly closed with a double quote."
    else "Check for missing commas, quotes, or brackets near this position."
  | none => "Check for missing commas, quotes, or brackets near this position."

/-- The ordered heuristic table of `errorPatterns`, first match wins,
returning the pattern's message and hint. -/
def classifyBase (input errorMessage : String) (position : Option Nat) :
    Option (String × String) :=
  match findTokPos errorMessage [rbraceChar, ']'] with
  | some c => some ("Extra comma before closing " ++
      (if c = rbraceChar then "brace" else "bracket"),
      "Remove the trailing comma before the closing brace or bracket.")
  | none =>
  match findTokPos errorMessage [rbraceChar, ','] with
  | some _ => some (missingValueMessage input position,
      "Add a value after the colon. Every key must have a value.")
  | none =>
  if hasTokAnyPos errorMessage then
    some (genericTokenMessage input position, genericTokenHint input position)
  else if containsCI errorMessage "Unterminated string" then
    some ("Unterminated string",
      "Make sure all strings are properly closed with a double quote.")
  else if containsCI errorMessage "Unexpected end of JSON input" ||
      containsCI errorMessage "Unexpected end of input" then
    some ("Unexpected end of input",
      "The JSON is incomplete. Check for missing closing brackets, braces, or quotes.")
  else if containsCI errorMessage "Expected property name" then
    some ("Expected a property name",
      "Object keys must be strings in double quotes, like \"name\".")
  else if containsCI errorMessage ("Unexpected token " ++ String.singleton singleQuote) then
    some ("Single quotes are not valid in JSON",
      "JSON requires double quotes for strings. Replace " ++
        String.singleton singleQuote ++ " with \".")
  else none

/-- The three context-aware overrides of `parseJsonError`, applied in order to
an already matched message/hint pair using the ±30-character window. -/
def applyOverrides (input : String) (p : Nat) (mh : String × String) : String × String :=
  let before := beforeCtx input p 30
  let charOpt := (input.data.drop p).head?
  let after := afterCtx input p 30
  let mh1 := if (match before.reverse.dropWhile jsWs with
        | ',' :: _ => true
        | _ => false) &&
      (match charOpt with
        | some c => c = rbraceChar || c = ']'
        | none => false) then
      ("Extra comma before closing " ++
        (if charOpt = some rbraceChar then "brace" else "bracket"),
       "Remove the trailing comma. JSON doesn" ++ String.singleton singleQuote ++
         "t allow trailing commas.")
    else mh
  let mh2 := match quotedKeySuffix before with
    | some key =>
      if !(match ((match charOpt with
            | some c => [c]
            | none => []) ++ after).dropWhile jsWs with
          | ':' :: _ => true
          | _ => false) then
        ("Missing colon after key \"" ++ ⟨key⟩ ++ "\"",
         "Add a colon (:) between the key and value.")
      else mh1
    | none => mh1
  let mh3 := if (match before.reverse.dropWhile jsWs with
        | c :: _ => c = lbraceChar || c = ','
        | [] => false) &&
      (match charOpt with
        | some c => c.isAlpha || c = '_'
        | none => false) then
      ("Unquoted property name",
       "Object keys must be wrapped in double quotes, like \"key\".")
    else mh2
  mh3

/-- `ParsedError` from `errorParser.ts`. -/
structure ParsedError where
  message : String
  hint : String
  position : Option Nat
  line : Option Nat
  column : Option Nat
deriving DecidableEq, Repr

/-- `parseJsonError(input, error)` from `errorParser.ts`, taking the
diagnostic `error.message` text: position, line and column are computed once
up front; the matched pattern (with overrides) or the fallback supplies
message and hint. -/
def parseJsonError (input : String) (errorMessage : String) : ParsedError :=
  let position := extractPosition errorMessage
  let lineCol := position.map (calculateLineAndColumn input)
  match classifyBase input errorMessage position with
  | some mh =>
    let mh2 := match position with
      | some p => applyOverrides input p mh
      | none => mh
    ⟨mh2.1, mh2.2, position, lineCol.map Prod.fst, lineCol.map Prod.snd⟩
  | none =>
    ⟨"Invalid JSON syntax", "Check for missing commas, quotes, colons, or brackets.",
      position, lineCol.map Prod.fst, lineCol.map Prod.snd⟩

/-- Index of the last newline of a character list (`lastNewlineIndex` in the
claim's formula), if any. -/
def lastNewlineIndex : List Char → Option Nat
  | [] => none
  | c :: rest =>
    match lastNewlineIndex rest with
    | some i => some (i + 1)
    | none => if c = '\n' then some 0 else none

/-- The column value asserted by the claim: `p` minus the index of the last
newline before `p`, and `p + 1` when no newline precedes `p`. -/
def specClaimedColumn (input : String) (p : Nat) : Nat :=
  match lastNewlineIndex (input.data.take p) with
  | some i => p - i
  | none => p + 1

/-- The newline split is never the empty list. -/
theorem splitNl_ne_nil : ∀ l : List Char, splitNl l ≠ [] := by
  intro l
  cases l with
  | nil => simp [splitNl]
  | cons c rest =>
    rw [splitNl]
    cases hsr : splitNl rest with
    | nil => simp
    | cons hh tt => by_cases hc : c = '\n' <;> simp [hc]

/-- The part count of the newline split is one more than the newline count. -/
theorem splitNl_length : ∀ l : List Char, (splitNl l).length = 1 + l.count '\n' := by
  intro l
  induction l with
  | nil => simp [splitNl]
  | cons c rest ih =>
    cases hsr : splitNl rest with
    | nil => exact absurd hsr (splitNl_ne_nil rest)
    | cons hh tt =>
      rw [hsr] at ih
      simp only [List.length_cons] at ih
      by_cases hc : c = '\n'
      · have hs : splitNl (c :: rest) = [] :: hh :: tt := by
          rw [splitNl, hsr]
          simp [hc]
        rw [hs]
        simp only [List.length_cons, List.count_cons]
        simp [hc]
        omega
      · have hs : splitNl (c :: rest) = (c :: hh) :: tt := by
          rw [splitNl, hsr]
          simp [hc]
        rw [hs]
        simp only [List.length_cons, List.count_cons]
        simp [hc]
        omega

/-- No last newline exactly when no newline occurs. -/
theorem lastNewlineIndex_none_iff : ∀ l : List Char,
    lastNewlineIndex l = none ↔ '\n' ∉ l := by
  intro l
  induction l with
  | nil => simp [lastNewlineIndex]
  | cons c rest ih =>
    rw [lastNewlineIndex]
    cases hlast : lastNewlineIndex rest with
    | some i =>
      simp only []
      constructor
      · intro h
        simp at h
      · intro h
        have hrest : '\n' ∉ rest := fun hm => h (List.mem_cons_of_mem c hm)
        have hnone := ih.mpr hrest
        rw [hnone] at hlast
        simp at hlast
    | none =>
      by_cases hc : c = '\n'
      · simp [hc]
      · simp [hc, ih.mp hlast, Ne.symm hc]

/-- A last-newline index is a position inside the list. -/
theorem lastNewlineIndex_lt : ∀ l : List Char, ∀ i, lastNewlineIndex l = some i →
    i < l.length := by
  intro l
  induction l with
  | nil => intro i h; simp [lastNewlineIndex] at h
  | cons c rest ih =>
    intro i h
    rw [lastNewlineIndex] at h
    cases hlast : lastNewlineIndex rest with
    | some j =>
      rw [hlast] at h
      simp only [Option.some.injEq] at h
      have := ih j hlast
      simp [← h]
      omega
    | none =>
      rw [hlast] at h
      by_cases hc : c = '\n'
      · rw [if_pos hc] at h
        simp only [Option.some.injEq] at h
        simp [← h]
      · rw [if_neg hc] at h
        exact absurd h (by simp)

/-- The last part of the newline split is the run after the last newline. -/
theorem splitNl_getLastD_length : ∀ l : List Char,
    ((splitNl l).getLastD []).length =
      (match lastNewlineIndex l with
       | some i => l.length - (i + 1)
       | none => l.length) := by
  intro l
  induction l with
  | nil => simp [splitNl, lastNewlineIndex]
  | cons c rest ih =>
    cases hsr : splitNl rest with
    | nil => exact absurd hsr (splitNl_ne_nil rest)
    | cons hh tt =>
      rw [hsr, List.getLastD_cons] at ih
      cases hlast : lastNewlineIndex rest with
      | some i =>
        rw [hlast] at ih
        simp only [] at ih
        have hi := lastNewlineIndex_lt rest i hlast
        have hnl : lastNewlineIndex (c :: rest) = some (i + 1) := by
          rw [lastNewlineIndex, hlast]
        rw [hnl]
        simp only [List.length_cons]
        by_cases hc : c = '\n'
        · have hs : splitNl (c :: rest) = [] :: hh :: tt := by
            rw [splitNl, hsr]
            simp [hc]
          rw [hs, List.getLastD_cons, List.getLastD_cons, ih]
          show rest.length - (i + 1) = rest.length + 1 - (i + 1 + 1)
          clear hc hs hsr hnl hlast ih
          omega
        · have hs : splitNl (c :: rest) = (c :: hh) :: tt := by
            rw [splitNl, hsr]
            simp [hc]
          have htt : tt ≠ [] := by
            have hmem : '\n' ∈ rest := by
              have hne : ¬ lastNewlineIndex rest = none := by simp [hlast]
              rw [lastNewlineIndex_none_iff] at hne
              simpa using hne
            have hcount : 1 ≤ rest.count '\n' := List.one_le_count_iff.mpr hmem
            have hlen := splitNl_length rest
            rw [hsr] at hlen
            simp only [List.length_cons] at hlen
            intro hcontra
            rw [hcontra] at hlen
            simp at hlen
            omega
          have heq : tt.getLastD (c :: hh) = tt.getLastD hh := by
            rw [List.getLastD_eq_getLast?, List.getLastD_eq_getLast?]
            cases htt2 : tt.getLast? with
            | none => exact absurd (List.getLast?_eq_none_iff.mp htt2) htt
            | some z => simp
          rw [hs, List.getLastD_cons, heq, ih]
          show rest.length - (i + 1) = rest.length + 1 - (i + 1 + 1)
          clear hc hs hsr hnl hlast ih htt heq
          omega
      | none =>
        rw [hlast] at ih
        simp only [] at ih
        by_cases hc : c = '\n'
        · have hnl : lastNewlineIndex (c :: rest) = some 0 := by
            rw [lastNewlineIndex, hlast]
            simp [hc]
          have hs : splitNl (c :: rest) = [] :: hh :: tt := by
            rw [splitNl, hsr]
            simp [hc]
          rw [hnl, hs, List.getLastD_cons, List.getLastD_cons, ih]
          simp
        · have hnl : lastNewlineIndex (c :: rest) = none := by
            rw [lastNewlineIndex, hlast]
            simp [hc]
          have htt : tt = [] := by
            have hmem : '\n' ∉ rest := (lastNewlineIndex_none_iff rest).mp hlast
            have hcount : rest.count '\n' = 0 := List.count_eq_zero.mpr hmem
            have hlen := splitNl_length rest
            rw [hsr, hcount] at hlen
            simpa using hlen
          subst htt
          have hs : splitNl (c :: rest) = [c :: hh] := by
            rw [splitNl, hsr]
            simp [hc]
          rw [hnl, hs, List.getLastD_cons, List.getLastD_nil]
          simp only [List.getLastD_nil] at ih
          show (c :: hh).length = rest.length + 1
          simp only [List.length_cons]
          omega

/-- Field-level shape of `parseJsonError`: position, line and column are
computed once from `extractPosition` and `calculateLineAndColumn`, regardless
of which heuristic (or the fallback) supplies message and hint. -/
theorem parseJsonError_fields (input msg : String) :
    (parseJsonError input msg).position = extractPosition msg ∧
    (parseJsonError input msg).line =
      ((extractPosition msg).map (calculateLineAndColumn input)).map Prod.fst ∧
    (parseJsonError input msg).column =
      ((extractPosition msg).map (calculateLineAndColumn input)).map Prod.snd := by
  rw [parseJsonError]
  cases h : classifyBase input msg (extractPosition msg) <;> simp [h]

/-- C8 amended: the classifier leaves position, line and column unset exactly
when no position is embedded in the diagnostic; when a position `p` is
extracted, line is one plus the number of newlines before `p`, and — provided
`p` does not exceed the input length (the code clamps the prefix, so an
out-of-range position reports the column of the input's end) — column is `p`
minus the index of the last newline before `p`, or `p + 1` when no newline
precedes it. -/
theorem error_location_spec (input errorMessage : String) :
    (parseJsonError input errorMessage).position = extractPosition errorMessage ∧
    (extractPosition errorMessage = none →
      (parseJsonError input errorMessage).line = none ∧
      (parseJsonError input errorMessage).column = none) ∧
    (∀ p, extractPosition errorMessage = some p →
      (parseJsonError input errorMessage).line =
        some (1 + (input.data.take p).count '\n')) ∧
    (∀ p, extractPosition errorMessage = some p → p ≤ input.data.length →
      (parseJsonError input errorMessage).column =
        some (specClaimedColumn input p)) := by
  obtain ⟨hpos, hline, hcol⟩ := parseJsonError_fields input errorMessage
  refine ⟨hpos, ?_, ?_, ?_⟩
  · intro hnone
    rw [hline, hcol, hnone]
    simp
  · intro p hp
    rw [hline, hp]
    simp only [Option.map_some']
    rw [show (calculateLineAndColumn input p).1 = (splitNl (input.data.take p)).length
          from rfl,
        splitNl_length]
  · intro p hp hple
    rw [hcol, hp]
    simp only [Option.map_some']
    rw [show (calculateLineAndColumn input p).2 =
          ((splitNl (input.data.take p)).getLastD []).length + 1 from rfl,
        splitNl_getLastD_length]
    have hlen : (input.data.take p).length = p := by
      rw [List.length_take]
      omega
    rw [specClaimedColumn]
    cases hlast : lastNewlineIndex (input.data.take p) with
    | some i =>
      have hi := lastNewlineIndex_lt _ i hlast
      rw [hlen] at hi
      show some ((input.data.take p).length - (i + 1) + 1) = some (p - i)
      rw [hlen]
      congr 1
      omega
    | none =>
      show some ((input.data.take p).length + 1) = some (p + 1)
      rw [hlen]

/-- C8 counterexample: a diagnostic position beyond the input end ("position
5" against the one-character input "a") makes the code clamp the prefix and
report column 2, while the claim's formula `p + 1` (no newline precedes `p`)
demands column 6. -/
theorem error_location_out_of_range_counterexample :
    (parseJsonError "a" "position 5").position = some 5 ∧
    (parseJsonError "a" "position 5").column = some 2 ∧
    specClaimedColumn "a" 5 = 6 ∧
    ¬ (parseJsonError "a" "position 5").column = some (specClaimedColumn "a" 5) := by
  decide

/-- C8 witness: the amended location specification evaluated at a concrete
two-line input and diagnostic. -/
theorem error_location_spec_witness :
    extractPosition "x position 4" = some 4 ∧
    4 ≤ ("ab\ncd" : String).data.length ∧
    (parseJsonError "ab\ncd" "x position 4").line =
      some (1 + ((("ab\ncd" : String).data.take 4).count '\n')) ∧
    (parseJsonError "ab\ncd" "x position 4").column =
      some (specClaimedColumn "ab\ncd" 4) := by
  refine ⟨by decide, by decide, ?_, ?_⟩
  · exact (error_location_spec "ab\ncd" "x position 4").2.2.1 4 (by decide)
  · exact (error_location_spec "ab\ncd" "x position 4").2.2.2 4 (by decide) (by decide)
